import Mathlib

/-!
Verification of the narrative-parsing core of the healthcare dashboard
(frontend/src/components/AIAnalysis.tsx).

The component parses a raw AI-generated narrative string into a typed
outline.  The relevant JavaScript operations and their embeddings:

* `analysis.split(/\d+\.\s/).filter(Boolean)`
    — `splitSections`: split on every leftmost, non-overlapping match of
      one-or-more ASCII digits, a period, and one whitespace character,
      then drop empty fragments.
* `section.split(':')[0].trim()`
    — `getSectionTitle`.
* `section.split(':').slice(1).join(':').trim()` then
  `content.split('\n').filter(line => line.trim())`
    — `getSectionContent`.
* the per-line branch on `line.match(/^\d+\.\s/)`, `line.startsWith('-')`
    — `classify`.
* the `sectionIcons` object lookup with `|| Brain` fallback
    — `resolveCategory`.

Strings are modelled through their character lists (`String.data`);
machine behaviour of the JavaScript regular expression `\d+\.\s` anchored
at a position is captured by `matchDelim` (greedy digit run, then a
period, then one whitespace character; backtracking to a shorter digit
run can never succeed because the character after a shorter run is again
a digit, so taking the maximal run is exact).
-/

set_option maxRecDepth 10000

namespace AIAnalysis

/-- The JavaScript whitespace class used by `\s` and `String.prototype.trim`:
tab, LF, VT, FF, CR, space, NBSP, Ogham space mark, the en-quad range,
line and paragraph separators, narrow NBSP, math space, ideographic space
and the BOM. -/
def isSpaceChar (c : Char) : Bool :=
  c.val = 0x9 || c.val = 0xa || c.val = 0xb || c.val = 0xc || c.val = 0xd ||
  c.val = 0x20 || c.val = 0xa0 || c.val = 0x1680 ||
  (0x2000 ≤ c.val && c.val ≤ 0x200a) ||
  c.val = 0x2028 || c.val = 0x2029 || c.val = 0x202f || c.val = 0x205f ||
  c.val = 0x3000 || c.val = 0xfeff

/-- JavaScript `trim()`: drop leading and trailing whitespace. -/
def trim (l : List Char) : List Char :=
  ((l.dropWhile isSpaceChar).reverse.dropWhile isSpaceChar).reverse

/-- Match of the regular expression `\d+\.\s` anchored at the start of `l`:
a non-empty run of ASCII digits, a literal period, one whitespace
character.  Returns the remainder after the match.  Taking the maximal
digit run is faithful to the backtracking engine: a shorter run would put
a digit, not a period, in the next position. -/
def matchDelim (l : List Char) : Option (List Char) :=
  if (l.takeWhile Char.isDigit).isEmpty then none
  else
    match l.dropWhile Char.isDigit with
    | '.' :: w :: rest => if isSpaceChar w then some rest else none
    | _ => none

/-- Fuelled scanner for `String.prototype.split(/\d+\.\s/)`: at each
position try the anchored match; on success emit the accumulated fragment
and continue after the match, otherwise advance one character.  `fuel`
bounds the number of steps; `fuel = length of the list` always suffices
because every step consumes at least one character. -/
def splitDelimAux : Nat → List Char → List Char → List (List Char)
  | _, [], acc => [acc.reverse]
  | 0, cs, acc => [acc.reverse ++ cs]
  | fuel + 1, c :: cs, acc =>
    match matchDelim (c :: cs) with
    | some tail => acc.reverse :: splitDelimAux fuel tail []
    | none => splitDelimAux fuel cs (c :: acc)

/-- `l.split(/\d+\.\s/)` on character lists. -/
def splitDelim (l : List Char) : List (List Char) :=
  splitDelimAux l.length l []

/-- Whether the pattern `\d+\.\s` matches anywhere in `l`. -/
def hasDelim : List Char → Bool
  | [] => false
  | c :: cs => (matchDelim (c :: cs)).isSome || hasDelim cs

/-- JavaScript `String.prototype.split` on a single separator character. -/
def splitOnCharAux (sep : Char) : List Char → List Char → List (List Char)
  | [], acc => [acc.reverse]
  | c :: cs, acc =>
    if c = sep then acc.reverse :: splitOnCharAux sep cs []
    else splitOnCharAux sep cs (c :: acc)

/-- `l.split(sep)` on character lists; always returns at least one piece. -/
def splitOnChar (sep : Char) (l : List Char) : List (List Char) :=
  splitOnCharAux sep l []

/-- `Array.prototype.join(sep)` on character lists. -/
def joinChar (sep : Char) : List (List Char) → List Char
  | [] => []
  | [x] => x
  | x :: xs => x ++ sep :: joinChar sep xs

/-- `analysis.split(/\d+\.\s/).filter(Boolean)` (AIAnalysis.tsx line 55):
the raw narrative cut at the numbered-section delimiters, empty fragments
removed. -/
def splitSections (analysis : String) : List String :=
  ((splitDelim analysis.data).map String.mk).filter (fun s => s != "")

/-- `getSectionTitle` (lines 58-60): `section.split(':')[0].trim()`. -/
def getSectionTitle (sec : String) : String :=
  String.mk (trim ((splitOnChar ':' sec.data).headD []))

/-- The string `section.split(':').slice(1).join(':').trim()` computed in
`getSectionContent` (line 64); this is the spec notion of a Section
rawBody. -/
def rawBodyOf (sec : String) : String :=
  String.mk (trim (joinChar ':' ((splitOnChar ':' sec.data).tail)))

/-- `getSectionContent` (lines 63-66): the rawBody split on newlines,
keeping only lines that are non-empty after trim (the lines themselves
are kept untrimmed). -/
def getSectionContent (sec : String) : List String :=
  (((splitOnChar '\n' (rawBodyOf sec).data).filter
      (fun l => !(trim l).isEmpty)).map String.mk)

/-- The icon assigned to a section: the four `lucide-react` components
used in the `sectionIcons` table, which also serve as the display
categories. -/
inductive Category where
  | brain
  | users
  | target
  | flag
deriving DecidableEq, Repr

/-- The `sectionIcons` lookup table (lines 69-74). -/
def sectionIcons : List (String × Category) :=
  [("Key Health Challenges", Category.brain),
   ("Healthcare Access Analysis", Category.users),
   ("Recommendations", Category.target),
   ("Priority Areas", Category.flag)]

/-- The property names a plain JavaScript object literal inherits from
`Object.prototype`.  Property access on `sectionIcons` falls through to
the prototype chain for these names, and each of them yields a truthy
value (a built-in function, or the prototype object itself for
`__proto__`), so the `|| Brain` fallback does not fire on them. -/
def objectProtoKeys : List String :=
  ["constructor", "hasOwnProperty", "isPrototypeOf",
   "propertyIsEnumerable", "toLocaleString", "toString", "valueOf",
   "__defineGetter__", "__defineSetter__", "__lookupGetter__",
   "__lookupSetter__", "__proto__"]

/-- A value that `sectionIcons[title] || Brain` can produce: one of the
four icons, or the truthy value inherited from `Object.prototype` under
the given property name (e.g. the `Object` constructor for
`"constructor"`). -/
inductive IconValue where
  | icon (c : Category)
  | inherited (name : String)
deriving DecidableEq, Repr

/-- `sectionIcons[title] || Brain` (line 81): exact, case-sensitive
own-key lookup; a missing own key falls through to the `Object.prototype`
properties, whose values are truthy and therefore survive `|| Brain`;
only a title that is neither an own key nor an inherited property name
yields `undefined` and takes the `Brain` fallback. -/
def resolveCategory (title : String) : IconValue :=
  match (sectionIcons.find? (fun p => p.fst = title)).map Prod.snd with
  | some c => IconValue.icon c
  | none =>
    if title ∈ objectProtoKeys then IconValue.inherited title
    else IconValue.icon Category.brain

/-- The typed result of classifying one body line (lines 87-102). -/
inductive ClassifiedLine where
  | numbered (ordinal : String) (text : String)
  | bullet (text : String)
  | plain (text : String)
deriving DecidableEq, Repr

/-- The `text` carried by a classified line. -/
def ClassifiedLine.text : ClassifiedLine → String
  | .numbered _ t => t
  | .bullet t => t
  | .plain t => t

/-- Whether a classified line is a numbered item. -/
def ClassifiedLine.isNumbered : ClassifiedLine → Bool
  | .numbered _ _ => true
  | _ => false

/-- The per-line branch of the component body (lines 87-102):
`line.match(/^\d+\.\s/)` selects the numbered branch, which destructures
`line.split('.')` into its head (the displayed number) and the remaining
parts rejoined with periods and trimmed; otherwise `line.startsWith('-')`
selects the bullet branch with `line.substring(1).trim()`; otherwise the
line renders as a plain trimmed paragraph. -/
def classify (line : String) : ClassifiedLine :=
  if (matchDelim line.data).isSome then
    ClassifiedLine.numbered
      (String.mk ((splitOnChar '.' line.data).headD []))
      (String.mk (trim (joinChar '.' ((splitOnChar '.' line.data).tail))))
  else if line.data.head? = some '-' then
    ClassifiedLine.bullet (String.mk (trim (line.data.drop 1)))
  else
    ClassifiedLine.plain (String.mk (trim line.data))

/-- A section as the spec describes it: title and rawBody. -/
structure Section where
  title : String
  rawBody : String
deriving DecidableEq, Repr

/-- The section list with title and rawBody made explicit, as the spec
describes the output of the Section Splitter. -/
def splitToSections (raw : String) : List Section :=
  (splitSections raw).map (fun f => ⟨getSectionTitle f, rawBodyOf f⟩)

/-- One rendered section: title, icon value and classified body lines. -/
structure OutlineNode where
  title : String
  displayCategory : IconValue
  items : List ClassifiedLine
deriving DecidableEq, Repr

/-- The node built for one section fragment (lines 78-84): title and
content via the two helpers, icon via the lookup, items by classifying
each content line in order. -/
def buildNode (frag : String) : OutlineNode :=
  { title := getSectionTitle frag
    displayCategory := resolveCategory (getSectionTitle frag)
    items := (getSectionContent frag).map classify }

/-- The outline built from the section fragments, in order. -/
def buildOutline (frags : List String) : List OutlineNode :=
  frags.map buildNode

/-- The whole component pipeline: split the narrative, build one node per
fragment. -/
def pipeline (raw : String) : List OutlineNode :=
  buildOutline (splitSections raw)

/-! ### Helper lemmas about the character-level primitives -/

theorem mem_takeWhile {p : Char → Bool} :
    ∀ {l : List Char} {c : Char}, c ∈ l.takeWhile p → p c = true := by
  intro l
  induction l with
  | nil => intro c h; simp [List.takeWhile] at h
  | cons x xs ih =>
    intro c h
    by_cases hx : p x
    · rw [List.takeWhile_cons, if_pos hx] at h
      rcases List.mem_cons.mp h with rfl | h
      · exact hx
      · exact ih h
    · rw [List.takeWhile_cons, if_neg hx] at h
      simp at h

theorem takeWhile_prepend {p : Char → Bool} :
    ∀ (ds : List Char) (y : Char) (r : List Char),
      (∀ c ∈ ds, p c = true) → p y = false →
      (ds ++ y :: r).takeWhile p = ds := by
  intro ds
  induction ds with
  | nil => intro y r _ hy; simp [List.takeWhile_cons, hy]
  | cons x xs ih =>
    intro y r hds hy
    have hx : p x = true := hds x (List.mem_cons_self x xs)
    simp only [List.cons_append, List.takeWhile_cons, if_pos hx]
    rw [ih y r (fun c hc => hds c (List.mem_cons_of_mem x hc)) hy]

theorem dropWhile_prepend {p : Char → Bool} :
    ∀ (ds : List Char) (y : Char) (r : List Char),
      (∀ c ∈ ds, p c = true) → p y = false →
      (ds ++ y :: r).dropWhile p = y :: r := by
  intro ds
  induction ds with
  | nil => intro y r _ hy; simp [List.dropWhile_cons, hy]
  | cons x xs ih =>
    intro y r hds hy
    have hx : p x = true := hds x (List.mem_cons_self x xs)
    simp only [List.cons_append, List.dropWhile_cons, if_pos hx]
    exact ih y r (fun c hc => hds c (List.mem_cons_of_mem x hc)) hy

theorem matchDelim_some_iff {l r : List Char} :
    matchDelim l = some r ↔
      ∃ ds w, ds ≠ [] ∧ (∀ c ∈ ds, Char.isDigit c = true) ∧
        isSpaceChar w = true ∧ l = ds ++ '.' :: w :: r := by
  constructor
  · intro h
    unfold matchDelim at h
    split at h
    · exact absurd h (by simp)
    · rename_i hne
      split at h
      · rename_i w rest hdrop
        split at h
        · rename_i hw
          injection h with h
          subst h
          refine ⟨l.takeWhile Char.isDigit, w, ?_, ?_, hw, ?_⟩
          · intro h0
            rw [h0] at hne
            simp at hne
          · intro c hc
            exact mem_takeWhile hc
          · conv_lhs => rw [← List.takeWhile_append_dropWhile Char.isDigit l]
            rw [hdrop]
        · exact absurd h (by simp)
      · exact absurd h (by simp)
  · rintro ⟨ds, w, hne, hds, hw, rfl⟩
    unfold matchDelim
    rw [takeWhile_prepend ds '.' (w :: r) hds (by decide),
        dropWhile_prepend ds '.' (w :: r) hds (by decide)]
    simp [hne, hw]

theorem matchDelim_append {u r : List Char} (h : matchDelim u = some r)
    (v : List Char) : matchDelim (u ++ v) = some (r ++ v) := by
  rcases matchDelim_some_iff.mp h with ⟨ds, w, hne, hds, hw, rfl⟩
  exact matchDelim_some_iff.mpr ⟨ds, w, hne, hds, hw, by simp⟩

theorem matchDelim_none_of_append {u v : List Char}
    (h : matchDelim (u ++ v) = none) : matchDelim u = none := by
  cases hm : matchDelim u with
  | none => rfl
  | some r => rw [matchDelim_append hm v] at h; cases h

theorem matchDelim_some_length {l r : List Char} (h : matchDelim l = some r) :
    r.length + 3 ≤ l.length := by
  rcases matchDelim_some_iff.mp h with ⟨ds, w, hne, -, -, rfl⟩
  have h1 : 1 ≤ ds.length := List.length_pos.mpr hne
  simp [List.length_append]
  omega

theorem drop_append_le :
    ∀ (a b : List Char) (i : Nat), i ≤ a.length →
      (a ++ b).drop i = a.drop i ++ b := by
  intro a
  induction a with
  | nil =>
    intro b i hi
    have : i = 0 := by simpa using hi
    subst this
    simp
  | cons x xs ih =>
    intro b i hi
    cases i with
    | zero => simp
    | succ j =>
      simp only [List.cons_append, List.drop_succ_cons]
      exact ih b j (by simpa using hi)

theorem drop_append_self (a x : List Char) : (a ++ x).drop a.length = x := by
  rw [drop_append_le a x a.length (le_refl _), List.drop_length]
  simp

theorem drop_of_le_length :
    ∀ (l : List Char) (i : Nat), l.length ≤ i → l.drop i = [] := by
  intro l
  induction l with
  | nil => intro i _; simp
  | cons x xs ih =>
    intro i hi
    cases i with
    | zero => simp at hi
    | succ j => simpa using ih j (by simpa using hi)

/-- A character list in which the delimiter pattern matches at no
position. -/
def cleanList (l : List Char) : Prop :=
  ∀ i, matchDelim (l.drop i) = none

theorem cleanList_reverse_of_scanned {cs acc : List Char}
    (hnil : cs = [])
    (H : ∀ i, i < acc.length → matchDelim (acc.reverse.drop i ++ cs) = none) :
    cleanList acc.reverse := by
  subst hnil
  intro i
  by_cases hi : i < acc.length
  · simpa using H i hi
  · rw [drop_of_le_length _ i (by simpa using Nat.le_of_not_lt hi)]
    rfl

/-- Invariant of the split scanner: if the pattern matched at none of the
already-scanned positions (relative to the full remaining input), then
every fragment the scanner emits is clean. -/
theorem splitDelimAux_clean :
    ∀ (fuel : Nat) (cs acc : List Char), cs.length ≤ fuel →
      (∀ i, i < acc.length → matchDelim (acc.reverse.drop i ++ cs) = none) →
      ∀ f ∈ splitDelimAux fuel cs acc, cleanList f := by
  intro fuel
  induction fuel with
  | zero =>
    intro cs acc hle H f hf
    have hcs : cs = [] := List.eq_nil_of_length_eq_zero (Nat.le_zero.mp hle)
    subst hcs
    simp only [splitDelimAux, List.mem_singleton] at hf
    subst hf
    exact cleanList_reverse_of_scanned rfl H
  | succ n ih =>
    intro cs acc hle H f hf
    cases cs with
    | nil =>
      simp only [splitDelimAux, List.mem_singleton] at hf
      subst hf
      exact cleanList_reverse_of_scanned rfl H
    | cons c cs =>
      cases hm : matchDelim (c :: cs) with
      | some tail =>
        simp only [splitDelimAux, hm] at hf
        rcases List.mem_cons.mp hf with rfl | hf
        · intro i
          by_cases hi : i < acc.length
          · exact matchDelim_none_of_append (H i hi)
          · rw [drop_of_le_length _ i (by simpa using Nat.le_of_not_lt hi)]
            rfl
        · have hlen : tail.length ≤ n := by
            have h3 := matchDelim_some_length hm
            simp at h3 hle
            omega
          exact ih tail [] hlen (by intro i hi; simp at hi) f hf
      | none =>
        simp only [splitDelimAux, hm] at hf
        refine ih cs (c :: acc) (by simp at hle; omega) ?_ f hf
        intro i hi
        rw [List.reverse_cons]
        by_cases hic : i < acc.length
        · rw [drop_append_le acc.reverse [c] i
            (by simpa using Nat.le_of_lt hic)]
          rw [List.append_assoc]
          simpa using H i hic
        · have hieq : i = acc.length := by
            simp at hi
            omega
          subst hieq
          rw [drop_append_le acc.reverse [c] acc.length (by simp),
            drop_of_le_length acc.reverse acc.length (by simp)]
          simpa using hm

/-- Every fragment produced by the section split is clean: the delimiter
pattern matches at no position inside it. -/
theorem splitDelim_clean (l : List Char) : ∀ f ∈ splitDelim l, cleanList f := by
  intro f hf
  exact splitDelimAux_clean l.length l [] (le_refl _)
    (by intro i hi; simp at hi) f hf

/-- When the delimiter pattern matches nowhere, the scanner returns the
input as a single fragment. -/
theorem splitDelimAux_of_no_delim :
    ∀ (fuel : Nat) (cs acc : List Char), cs.length ≤ fuel →
      hasDelim cs = false →
      splitDelimAux fuel cs acc = [acc.reverse ++ cs] := by
  intro fuel
  induction fuel with
  | zero =>
    intro cs acc hle _
    have hcs : cs = [] := List.eq_nil_of_length_eq_zero (Nat.le_zero.mp hle)
    subst hcs
    simp [splitDelimAux]
  | succ n ih =>
    intro cs acc hle hnd
    cases cs with
    | nil => simp [splitDelimAux]
    | cons c cs =>
      have h2 : (matchDelim (c :: cs)).isSome = false ∧ hasDelim cs = false := by
        simpa [hasDelim] using hnd
      have hm : matchDelim (c :: cs) = none := by
        cases h : matchDelim (c :: cs) with
        | none => rfl
        | some a =>
          have := h2.1
          rw [h] at this
          simp at this
      simp only [splitDelimAux, hm]
      rw [ih cs (c :: acc) (by simp at hle; omega) h2.2]
      simp

theorem splitDelim_of_no_delim {l : List Char} (h : hasDelim l = false) :
    splitDelim l = [l] := by
  simpa [splitDelim] using splitDelimAux_of_no_delim l.length l [] (le_refl _) h

/-! ### Lemmas about single-character splitting and joining -/

theorem splitOnCharAux_ne_nil (sep : Char) :
    ∀ (cs acc : List Char), splitOnCharAux sep cs acc ≠ [] := by
  intro cs
  induction cs with
  | nil => intro acc; simp [splitOnCharAux]
  | cons c cs ih =>
    intro acc
    simp only [splitOnCharAux]
    split
    · simp
    · exact ih (c :: acc)

theorem splitOnChar_ne_nil (sep : Char) (l : List Char) :
    splitOnChar sep l ≠ [] :=
  splitOnCharAux_ne_nil sep l []

theorem joinChar_splitOnCharAux (sep : Char) :
    ∀ (cs acc : List Char),
      joinChar sep (splitOnCharAux sep cs acc) = acc.reverse ++ cs := by
  intro cs
  induction cs with
  | nil => intro acc; simp [splitOnCharAux, joinChar]
  | cons c cs ih =>
    intro acc
    by_cases hc : c = sep
    · subst hc
      simp only [splitOnCharAux, if_pos rfl]
      cases h : splitOnCharAux c cs [] with
      | nil => exact absurd h (splitOnCharAux_ne_nil c cs [])
      | cons hd tl =>
        have h1 := ih []
        rw [h] at h1
        simp only [joinChar]
        rw [h1]
        simp
    · simp only [splitOnCharAux, if_neg hc]
      rw [ih (c :: acc)]
      simp

theorem joinChar_splitOnChar (sep : Char) (l : List Char) :
    joinChar sep (splitOnChar sep l) = l := by
  simpa using joinChar_splitOnCharAux sep l []

theorem splitOnCharAux_infix (sep : Char) :
    ∀ (cs acc f : List Char), f ∈ splitOnCharAux sep cs acc →
      ∃ a b, acc.reverse ++ cs = a ++ f ++ b := by
  intro cs
  induction cs with
  | nil =>
    intro acc f hf
    simp only [splitOnCharAux, List.mem_singleton] at hf
    subst hf
    exact ⟨[], [], by simp⟩
  | cons c cs ih =>
    intro acc f hf
    by_cases hc : c = sep
    · subst hc
      simp only [splitOnCharAux, if_pos rfl] at hf
      rcases List.mem_cons.mp hf with rfl | hf
      · exact ⟨[], c :: cs, by simp⟩
      · rcases ih [] f hf with ⟨a, b, hab⟩
        simp only [List.reverse_nil, List.nil_append] at hab
        refine ⟨acc.reverse ++ c :: a, b, ?_⟩
        rw [hab]
        simp
    · simp only [splitOnCharAux, if_neg hc] at hf
      rcases ih (c :: acc) f hf with ⟨a, b, hab⟩
      rw [List.reverse_cons, List.append_assoc] at hab
      exact ⟨a, b, by simpa using hab⟩

theorem splitOnChar_infix (sep : Char) {l f : List Char}
    (hf : f ∈ splitOnChar sep l) : ∃ a b, l = a ++ f ++ b := by
  rcases splitOnCharAux_infix sep l [] f hf with ⟨a, b, hab⟩
  exact ⟨a, b, by simpa using hab⟩

theorem splitOnCharAux_prepend (sep : Char) :
    ∀ (b : List Char), (∀ c ∈ b, c ≠ sep) → ∀ (r acc : List Char),
      splitOnCharAux sep (b ++ sep :: r) acc =
        (acc.reverse ++ b) :: splitOnChar sep r := by
  intro b
  induction b with
  | nil => intro _ r acc; simp [splitOnCharAux, splitOnChar]
  | cons x xs ih =>
    intro hb r acc
    have hx : x ≠ sep := hb x (List.mem_cons_self x xs)
    simp only [List.cons_append, splitOnCharAux, if_neg hx, List.append_eq]
    rw [ih (fun c hc => hb c (List.mem_cons_of_mem x hc)) r (x :: acc)]
    simp

theorem splitOnChar_decompose (sep : Char) {b r : List Char}
    (hb : ∀ c ∈ b, c ≠ sep) :
    splitOnChar sep (b ++ sep :: r) = b :: splitOnChar sep r := by
  simpa [splitOnChar] using splitOnCharAux_prepend sep b hb r []

theorem tail_join_suffix (sep : Char) (l : List Char) :
    ∃ a, l = a ++ joinChar sep ((splitOnChar sep l).tail) := by
  cases h : splitOnChar sep l with
  | nil => exact absurd h (splitOnChar_ne_nil sep l)
  | cons hd tl =>
    cases tl with
    | nil => exact ⟨l, by simp [h, joinChar]⟩
    | cons x xs =>
      have hj := joinChar_splitOnChar sep l
      rw [h] at hj
      simp only [joinChar] at hj
      refine ⟨hd ++ [sep], ?_⟩
      simp only [List.tail_cons, List.append_assoc, List.singleton_append]
      exact hj.symm

theorem dropWhile_suffix (p : Char → Bool) :
    ∀ (l : List Char), ∃ a, l = a ++ l.dropWhile p := by
  intro l
  induction l with
  | nil => exact ⟨[], rfl⟩
  | cons x xs ih =>
    by_cases hx : p x
    · rcases ih with ⟨a, ha⟩
      refine ⟨x :: a, ?_⟩
      rw [List.dropWhile_cons, if_pos hx, List.cons_append, ← ha]
    · refine ⟨[], ?_⟩
      rw [List.dropWhile_cons, if_neg hx]
      simp

theorem trim_infix (l : List Char) : ∃ a b, l = a ++ trim l ++ b := by
  unfold trim
  rcases dropWhile_suffix isSpaceChar l with ⟨a, ha⟩
  rcases dropWhile_suffix isSpaceChar (l.dropWhile isSpaceChar).reverse
    with ⟨a2, ha2⟩
  refine ⟨a, a2.reverse, ?_⟩
  have hm2 : l.dropWhile isSpaceChar =
      ((l.dropWhile isSpaceChar).reverse.dropWhile isSpaceChar).reverse ++
        a2.reverse := by
    have h3 := congrArg List.reverse ha2
    simpa [List.reverse_append] using h3
  rw [List.append_assoc, ← hm2, ← ha]

theorem cleanList_of_infix {l u : List Char} (h : cleanList l)
    {a b : List Char} (hab : l = a ++ u ++ b) : matchDelim u = none := by
  have h1 := h a.length
  rw [hab, List.append_assoc, drop_append_self] at h1
  exact matchDelim_none_of_append h1

/-! ### Bridge lemmas: from cleanness of fragments to the classifier -/

/-- Every line selected by `getSectionContent` is a contiguous infix of
the section fragment: the after-colon part is a suffix, trimming keeps an
infix, newline splitting keeps infixes. -/
theorem content_line_infix {frag : String} {l : List Char}
    (hl : l ∈ (splitOnChar '\n' (rawBodyOf frag).data).filter
      (fun x => !(trim x).isEmpty)) :
    ∃ a b, frag.data = a ++ l ++ b := by
  have h1 : l ∈ splitOnChar '\n' (rawBodyOf frag).data :=
    List.mem_of_mem_filter hl
  rcases splitOnChar_infix '\n' h1 with ⟨a1, b1, h2⟩
  have h3 : (rawBodyOf frag).data =
      trim (joinChar ':' ((splitOnChar ':' frag.data).tail)) := rfl
  rcases trim_infix (joinChar ':' ((splitOnChar ':' frag.data).tail))
    with ⟨a2, b2, h4⟩
  rcases tail_join_suffix ':' frag.data with ⟨a3, h5⟩
  refine ⟨a3 ++ (a2 ++ a1), b1 ++ b2, ?_⟩
  rw [h3] at h2
  rw [h2] at h4
  conv_lhs => rw [h5, h4]
  simp [List.append_assoc]

theorem classify_not_numbered_of_none {line : String}
    (h : matchDelim line.data = none) :
    (classify line).isNumbered = false := by
  unfold classify
  rw [if_neg (by simp [h])]
  split <;> rfl

theorem content_not_numbered {frag line : String}
    (hclean : cleanList frag.data) (hline : line ∈ getSectionContent frag) :
    (classify line).isNumbered = false := by
  have h0 : line ∈ ((splitOnChar '\n' (rawBodyOf frag).data).filter
      (fun x => !(trim x).isEmpty)).map String.mk := hline
  rcases List.mem_map.mp h0 with ⟨l, hl, rfl⟩
  rcases content_line_infix hl with ⟨a, b, hab⟩
  exact classify_not_numbered_of_none
    (show matchDelim (String.mk l).data = none from cleanList_of_infix hclean hab)

theorem splitSections_clean {raw frag : String}
    (hfrag : frag ∈ splitSections raw) : cleanList frag.data := by
  have h0 : frag ∈ ((splitDelim raw.data).map String.mk).filter
      (fun s => s != "") := hfrag
  have h1 := List.mem_of_mem_filter h0
  rcases List.mem_map.mp h1 with ⟨f, hf, rfl⟩
  exact splitDelim_clean raw.data f hf

/-- Full description of the numbered branch of `classify` when the
anchored pattern matches: the displayed number is exactly the leading
digit run and the text is the remainder after the first period, trimmed. -/
theorem classify_of_match {line : String} {r : List Char}
    (hm : matchDelim line.data = some r) :
    ∃ ds w, ds ≠ [] ∧ (∀ c ∈ ds, Char.isDigit c = true) ∧
      isSpaceChar w = true ∧ line.data = ds ++ '.' :: w :: r ∧
      classify line =
        ClassifiedLine.numbered (String.mk ds) (String.mk (trim (w :: r))) := by
  rcases matchDelim_some_iff.mp hm with ⟨ds, w, hne, hds, hw, hl⟩
  refine ⟨ds, w, hne, hds, hw, hl, ?_⟩
  have hcond : (matchDelim line.data).isSome = true := by rw [hm]; rfl
  unfold classify
  rw [if_pos hcond]
  have hdsne : ∀ c ∈ ds, c ≠ '.' := by
    intro c hc hc2
    subst hc2
    exact absurd (hds '.' hc) (by decide)
  rw [hl, splitOnChar_decompose '.' hdsne]
  simp only [List.headD_cons, List.tail_cons]
  rw [joinChar_splitOnChar]

theorem classify_of_bullet {line : String}
    (h1 : (matchDelim line.data).isSome = false)
    {rest : List Char} (h2 : line.data = '-' :: rest) :
    classify line = ClassifiedLine.bullet (String.mk (trim rest)) := by
  unfold classify
  rw [if_neg (by simp [h1]), h2]
  simp

theorem classify_of_plain {line : String}
    (h1 : (matchDelim line.data).isSome = false)
    (h2 : line.data.head? ≠ some '-') :
    classify line = ClassifiedLine.plain (String.mk (trim line.data)) := by
  unfold classify
  rw [if_neg (by simp [h1]), if_neg h2]

/-! ### The claims -/

/-- C1 — Totality of the core pipeline: for every string, composing the
section splitter, line classifier and outline builder returns a defined
OutlineNode sequence; in particular the empty string, a pure-whitespace
string and a string with no recognizable markers all produce defined
outputs. -/
theorem c1_pipeline_total :
    (∀ s : String, ∃ nodes : List OutlineNode, pipeline s = nodes) ∧
    pipeline "" = [] ∧
    pipeline "   " =
      [{ title := "", displayCategory := IconValue.icon Category.brain,
         items := [] }] ∧
    pipeline "no markers here" =
      [{ title := "no markers here",
         displayCategory := IconValue.icon Category.brain,
         items := [] }] :=
  ⟨fun s => ⟨pipeline s, rfl⟩, by decide, by decide, by decide⟩

/-- C2, counterexample — the claim predicts one Section with empty title
and the whole input as rawBody for empty or delimiter-free input; the
code instead returns no sections on the empty string (the lone empty
fragment is removed by `filter(Boolean)`), and on `"hello"` (which has no
delimiter match) one section whose title is `"hello"` and whose rawBody
is empty. -/
theorem c2_split_degenerate_counterexample :
    splitToSections "" = [] ∧
    splitToSections "" ≠ [{ title := "", rawBody := "" }] ∧
    hasDelim ("hello" : String).data = false ∧
    splitToSections "hello" = [{ title := "hello", rawBody := "" }] ∧
    splitToSections "hello" ≠ [{ title := "", rawBody := "hello" }] := by
  decide

/-- C2, amended — if the raw input is empty, split returns no sections;
if it is non-empty and the delimiter pattern matches nowhere in it, split
returns exactly one Section whose title and rawBody are obtained from the
whole input by the usual colon rule (text before the first colon, trimmed,
and text after it, trimmed). -/
theorem c2_split_degenerate_amended :
    splitToSections "" = [] ∧
    ∀ raw : String, raw ≠ "" → hasDelim raw.data = false →
      splitToSections raw =
        [{ title := getSectionTitle raw, rawBody := rawBodyOf raw }] := by
  refine ⟨by decide, ?_⟩
  intro raw hne hnd
  have h1 : splitDelim raw.data = [raw.data] := splitDelim_of_no_delim hnd
  show ((((splitDelim raw.data).map String.mk).filter (fun s => s != "")).map
    (fun f => ({ title := getSectionTitle f, rawBody := rawBodyOf f } : Section))) = _
  rw [h1]
  simp only [List.map_cons, List.map_nil]
  have h2 : String.mk raw.data = raw := rfl
  rw [h2]
  have h3 : (raw != "") = true := bne_iff_ne.mpr hne
  simp [List.filter, h3]

/-- Witness for the amended C2 at a concrete delimiter-free input. -/
theorem c2_split_degenerate_amended_witness :
    splitToSections "plain body text" =
      [{ title := getSectionTitle "plain body text",
         rawBody := rawBodyOf "plain body text" }] :=
  c2_split_degenerate_amended.2 "plain body text" (by decide) (by decide)

/-- C3, counterexample — the universal fallback fails on the program:
`"constructor"` is not among the known titles, yet
`sectionIcons["constructor"] || Brain` yields the truthy `Object`
constructor inherited through the prototype chain, not the Default
category, and differs from the result for another unmapped title. -/
theorem c3_category_lookup_counterexample :
    sectionIcons.find? (fun p => p.fst = "constructor") = none ∧
    resolveCategory "constructor" = IconValue.inherited "constructor" ∧
    resolveCategory "constructor" ≠ IconValue.icon Category.brain ∧
    resolveCategory "constructor" ≠ resolveCategory "Unexpected Topic" := by
  decide

/-- C3, amended — any title missing from the `sectionIcons` table that is
not an `Object.prototype` property name resolves to the default (Brain)
category; a title that is such an inherited property name yields the
truthy inherited value, bypassing the fallback; every title in the table
resolves to its mapped category; the match is exact and case-sensitive,
so the lower-case variant of a known title falls back to the default. -/
theorem c3_category_lookup :
    (∀ t : String, sectionIcons.find? (fun p => p.fst = t) = none →
        t ∉ objectProtoKeys →
        resolveCategory t = IconValue.icon Category.brain) ∧
    (∀ t ∈ objectProtoKeys, resolveCategory t = IconValue.inherited t) ∧
    resolveCategory "Unexpected Topic" = IconValue.icon Category.brain ∧
    resolveCategory "Recommendations" = IconValue.icon Category.target ∧
    (∀ t c, (t, c) ∈ sectionIcons → resolveCategory t = IconValue.icon c) ∧
    resolveCategory "recommendations" = IconValue.icon Category.brain := by
  refine ⟨?_, by decide, by decide, by decide, ?_, by decide⟩
  · intro t h hp
    simp [resolveCategory, h, hp]
  · intro t c h
    simp only [sectionIcons, List.mem_cons, List.not_mem_nil, or_false,
      Prod.mk.injEq] at h
    rcases h with ⟨rfl, rfl⟩ | ⟨rfl, rfl⟩ | ⟨rfl, rfl⟩ | ⟨rfl, rfl⟩ <;> decide

/-- Witness for C3: the two lookups named by the claim, plus a
prototype-chain hit. -/
theorem c3_category_lookup_witness :
    resolveCategory "Unexpected Topic" = IconValue.icon Category.brain ∧
    resolveCategory "Recommendations" = IconValue.icon Category.target ∧
    resolveCategory "toString" = IconValue.inherited "toString" :=
  ⟨c3_category_lookup.1 "Unexpected Topic" (by decide) (by decide),
   c3_category_lookup.2.2.2.2.1 "Recommendations" Category.target (by decide),
   c3_category_lookup.2.1 "toString" (by decide)⟩

/-- C4, counterexample — a numbered line whose text contains
`"3.5 years."` does not classify to ordinal `"3"` and text `"5 years."`:
the line keeps its own leading ordinal and the embedded periods survive
in the text through the rejoin. -/
theorem c4_numbered_counterexample :
    (matchDelim ("1. Gap of 3.5 years." : String).data).isSome = true ∧
    "1. Gap of 3.5 years." = "1. Gap of " ++ "3.5 years." ∧
    classify "1. Gap of 3.5 years." =
      ClassifiedLine.numbered "1" "Gap of 3.5 years." ∧
    classify "1. Gap of 3.5 years." ≠ ClassifiedLine.numbered "3" "5 years." := by
  decide

/-- C4, amended — for every line matching the anchored pattern, the
classification is a NumberedItem whose ordinal is the substring before
the first literal period and whose text is the remainder after that first
period, trimmed, with subsequent periods rejoined;
`"2. Expand screening"` gives ordinal `"2"` and text `"Expand screening"`,
and the line `"3. 5 years."` (not a line containing `"3.5 years."`)
gives ordinal `"3"` and text `"5 years."`. -/
theorem c4_numbered_classification :
    (∀ line : String, (matchDelim line.data).isSome = true →
      ∃ pre post : List Char, line.data = pre ++ '.' :: post ∧ '.' ∉ pre ∧
        classify line =
          ClassifiedLine.numbered (String.mk pre) (String.mk (trim post))) ∧
    classify "2. Expand screening" =
      ClassifiedLine.numbered "2" "Expand screening" ∧
    classify "3. 5 years." = ClassifiedLine.numbered "3" "5 years." := by
  refine ⟨?_, by decide, by decide⟩
  intro line h
  cases hm : matchDelim line.data with
  | none => rw [hm] at h; simp at h
  | some r =>
    rcases classify_of_match hm with ⟨ds, w, hne, hds, hw, hl, hc⟩
    refine ⟨ds, w :: r, hl, ?_, hc⟩
    intro hdot
    exact absurd (hds '.' hdot) (by decide)

/-- Witness for the amended C4 at the spec example line. -/
theorem c4_numbered_classification_witness :
    ∃ pre post : List Char,
      ("2. Expand screening" : String).data = pre ++ '.' :: post ∧
      '.' ∉ pre ∧
      classify "2. Expand screening" =
        ClassifiedLine.numbered (String.mk pre) (String.mk (trim post)) :=
  c4_numbered_classification.1 "2. Expand screening" (by decide)

/-- C5 — Section split correctness on the spec example: the two-section
narrative splits into the titles `"Key Health Challenges"` and
`"Recommendations"` in that order, each with the text after its first
colon, trimmed, as rawBody. -/
theorem c5_section_split_example :
    splitToSections
        "1. Key Health Challenges: Diabetes is rising.\n\n2. Recommendations: Expand screening." =
      [{ title := "Key Health Challenges", rawBody := "Diabetes is rising." },
       { title := "Recommendations", rawBody := "Expand screening." }] := by
  decide

/-- C6 — Order preservation end-to-end: the outline nodes are in the
order of their sections of first occurrence in the input (node `i` is
built from fragment `i` of the split), and within each node the items
are the classified body lines in body order. -/
theorem c6_order_preservation (s : String) :
    (pipeline s).map OutlineNode.title = (splitSections s).map getSectionTitle ∧
    (pipeline s).map OutlineNode.items =
      (splitSections s).map (fun sec => (getSectionContent sec).map classify) := by
  constructor
  · rw [show pipeline s = (splitSections s).map buildNode from rfl,
      List.map_map]
    rfl
  · rw [show pipeline s = (splitSections s).map buildNode from rfl,
      List.map_map]
    rfl

/-- C7 — No silent loss: for every section, the item list is exactly the
classification of the surviving body lines (so the lengths agree), and
each surviving line decomposes as an optional marker (nothing, a leading
hyphen, or a digit run followed by a period) followed by a remainder
whose trim is the classified text. -/
theorem c7_no_silent_loss (sec : String) :
    (buildNode sec).items = (getSectionContent sec).map classify ∧
    (buildNode sec).items.length = (getSectionContent sec).length ∧
    ∀ line ∈ getSectionContent sec, ∃ pre rest : List Char,
      line.data = pre ++ rest ∧
      (pre = [] ∨ pre = ['-'] ∨
        ∃ ds, ds ≠ [] ∧ (∀ c ∈ ds, Char.isDigit c = true) ∧ pre = ds ++ ['.']) ∧
      (classify line).text = String.mk (trim rest) := by
  refine ⟨rfl, by simp [buildNode], ?_⟩
  intro line hline
  cases hm : matchDelim line.data with
  | some r =>
    rcases classify_of_match hm with ⟨ds, w, hne, hds, hw, hl, hc⟩
    refine ⟨ds ++ ['.'], w :: r, by rw [hl]; simp,
      Or.inr (Or.inr ⟨ds, hne, hds, rfl⟩), ?_⟩
    rw [hc]
    rfl
  | none =>
    have h1f : (matchDelim line.data).isSome = false := by rw [hm]; rfl
    by_cases h2 : line.data.head? = some '-'
    · cases hh : line.data with
      | nil => rw [hh] at h2; simp at h2
      | cons c tl =>
        rw [hh] at h2
        simp only [List.head?_cons, Option.some.injEq] at h2
        subst h2
        have hc := classify_of_bullet h1f hh
        exact ⟨['-'], tl, rfl, Or.inr (Or.inl rfl),
          by rw [hc]; rfl⟩
    · have hc := classify_of_plain h1f h2
      exact ⟨[], line.data, by simp, Or.inl rfl, by rw [hc]; rfl⟩

/-- Witness for C7 at a concrete section with a bullet line. -/
theorem c7_no_silent_loss_witness :
    ∃ pre rest : List Char,
      ("- x" : String).data = pre ++ rest ∧
      (pre = [] ∨ pre = ['-'] ∨
        ∃ ds, ds ≠ [] ∧ (∀ c ∈ ds, Char.isDigit c = true) ∧ pre = ds ++ ['.']) ∧
      (classify "- x").text = String.mk (trim rest) :=
  (c7_no_silent_loss "T: - x").2.2 "- x" (by decide)

/-- C8 — Bullet and plain-text classification: a non-numbered line that
starts with a hyphen classifies as a BulletItem carrying the line minus
the hyphen, trimmed; any other non-numbered line classifies as PlainText
carrying the trimmed line; with the two spec examples. -/
theorem c8_bullet_plain_classification :
    (∀ line : String, (matchDelim line.data).isSome = false →
      ∀ rest : List Char, line.data = '-' :: rest →
        classify line = ClassifiedLine.bullet (String.mk (trim rest))) ∧
    (∀ line : String, (matchDelim line.data).isSome = false →
      line.data.head? ≠ some '-' →
        classify line = ClassifiedLine.plain (String.mk (trim line.data))) ∧
    classify "- Improve access" = ClassifiedLine.bullet "Improve access" ∧
    classify "Overall summary" = ClassifiedLine.plain "Overall summary" := by
  refine ⟨?_, ?_, by decide, by decide⟩
  · intro line h rest h2
    exact classify_of_bullet h h2
  · intro line h h2
    exact classify_of_plain h h2

/-- Witness for C8 at the two spec example lines. -/
theorem c8_bullet_plain_classification_witness :
    classify "- Improve access" =
      ClassifiedLine.bullet (String.mk (trim (" Improve access" : String).data)) ∧
    classify "Overall summary" =
      ClassifiedLine.plain (String.mk (trim ("Overall summary" : String).data)) :=
  ⟨c8_bullet_plain_classification.1 "- Improve access" (by decide)
      (" Improve access" : String).data (by decide),
   c8_bullet_plain_classification.2.1 "Overall summary" (by decide) (by decide)⟩

/-- C9 — The numbered-item branch is unreachable on split output: every
fragment produced by the section splitter is free of the delimiter
pattern at every position, and consequently no item of any outline node
is ever a NumberedItem. -/
theorem c9_no_numbered_items (raw : String) :
    (∀ frag ∈ splitSections raw, ∀ i, matchDelim (frag.data.drop i) = none) ∧
    (∀ node ∈ pipeline raw, ∀ item ∈ node.items, item.isNumbered = false) := by
  constructor
  · intro frag hfrag i
    exact splitSections_clean hfrag i
  · intro node hnode item hitem
    have hn2 : node ∈ (splitSections raw).map buildNode := hnode
    rcases List.mem_map.mp hn2 with ⟨frag, hfrag, rfl⟩
    have hi2 : item ∈ (getSectionContent frag).map classify := hitem
    rcases List.mem_map.mp hi2 with ⟨line, hline, rfl⟩
    exact content_not_numbered (splitSections_clean hfrag) hline

/-- Witness for C9 at a concrete narrative. -/
theorem c9_no_numbered_items_witness :
    matchDelim (("Topic: hello" : String).data.drop 0) = none ∧
    (ClassifiedLine.plain "hello").isNumbered = false :=
  ⟨(c9_no_numbered_items "1. Topic: hello").1 "Topic: hello" (by decide) 0,
   (c9_no_numbered_items "1. Topic: hello").2
     { title := "Topic", displayCategory := IconValue.icon Category.brain,
       items := [ClassifiedLine.plain "hello"] }
     (by decide) (ClassifiedLine.plain "hello") (by decide)⟩

/-- C10, counterexample — not every title absent from the lookup table
resolves like `"Key Health Challenges"`: the absent title
`"constructor"` hits the prototype chain and yields the inherited
`Object` constructor instead of Brain. -/
theorem c10_default_is_brain_counterexample :
    sectionIcons.find? (fun p => p.fst = "constructor") = none ∧
    resolveCategory "constructor" ≠ resolveCategory "Key Health Challenges" := by
  decide

/-- C10, amended — every title absent from the lookup table that is not
an `Object.prototype` property name resolves to the same category as
`"Key Health Challenges"`, namely Brain, so such an unmapped section is
visually indistinguishable from the Key Health Challenges section. -/
theorem c10_default_is_brain :
    (∀ t : String, sectionIcons.find? (fun p => p.fst = t) = none →
      t ∉ objectProtoKeys →
      resolveCategory t = resolveCategory "Key Health Challenges") ∧
    resolveCategory "Key Health Challenges" = IconValue.icon Category.brain := by
  refine ⟨?_, by decide⟩
  intro t h hp
  have h1 : resolveCategory t = IconValue.icon Category.brain := by
    simp [resolveCategory, h, hp]
  rw [h1]
  decide

/-- Witness for C10 at a concrete unmapped title. -/
theorem c10_default_is_brain_witness :
    resolveCategory "Some Other Topic" = resolveCategory "Key Health Challenges" :=
  c10_default_is_brain.1 "Some Other Topic" (by decide) (by decide)

end AIAnalysis
